import Mathlib

/-!
# A verification development for the 2048 board engine

The repository ships two GUI front-ends (tkinter and PyQt6) around one and
the same board-engine class `Game2048`.  The engine code of the two files is
textually identical except for the `move` method: the tkinter version's
`move` returns `None` on every path, the PyQt6 version returns the boolean
`moved`.  Below, every engine method is embedded as a Lean function over an
explicit state record; the one differing method is embedded twice (`move1`
for the tkinter file, `move2` for the PyQt6 file).  The random choices made
by `add_new_tile` (which empty cell, and 2 versus 4) enter as explicit
parameters.  A second, reference-passing model (`HState` and friends) embeds
the same methods at the level of Python object identity, to reason about
aliasing between the live grid and history snapshots.
-/

namespace Game2048

/-- Embeds `Game2048._compress` (identical in both files): drop the zeros of a row,
keeping the order of the nonzero cells, and pad with zeros to length
`size`. -/
def compress (size : Nat) (row : List Nat) : List Nat :=
  let new_row := row.filter (fun v => decide (v ≠ 0))
  new_row ++ List.replicate (size - new_row.length) 0

/-- The guard `row[i] != 0 and row[i] == row[i+1]` of the loop inside
`Game2048._merge`. -/
def mergeCond (row : List Nat) (i : Nat) : Bool :=
  decide (row.getD i 0 ≠ 0) && decide (row.getD i 0 = row.getD (i + 1) 0)

/-- The body of one firing iteration of the loop inside `Game2048._merge`:
`row[i] *= 2; row[i+1] = 0`. -/
def mergeSet (row : List Nat) (i : Nat) : List Nat :=
  (row.set i (2 * row.getD i 0)).set (i + 1) 0

/-- The loop `for i in range(self.size - 1)` of `Game2048._merge`, started at
index `i` with `k` iterations left.  Besides the updated row it returns the
list of doubled values the loop adds to `self.score` (`self.score += row[i]`
just after `row[i] *= 2`), in the order they are produced. -/
def mergeIter : List Nat → Nat → Nat → List Nat × List Nat
  | row, _, 0 => (row, [])
  | row, i, k + 1 =>
    if mergeCond row i then
      let v := 2 * row.getD i 0
      let p := mergeIter (mergeSet row i) (i + 1) k
      (p.1, v :: p.2)
    else
      mergeIter row (i + 1) k

/-- Embeds `Game2048._merge` (identical in both files): compress, one left-to-right
merge sweep, compress again.  Second component: the doubled values added to
`self.score` during the sweep. -/
def merge (size : Nat) (row : List Nat) : List Nat × List Nat :=
  let p := mergeIter (compress size row) 0 (size - 1)
  (compress size p.1, p.2)

/-- Embeds `Game2048._reverse`: `[row[::-1] for row in self.grid]`. -/
def reverseRows (g : List (List Nat)) : List (List Nat) :=
  g.map List.reverse

/-- The length of the shortest row: `zip(*grid)` truncates to it. -/
def minRowLen : List (List Nat) → Nat
  | [] => 0
  | r :: rs => rs.foldl (fun m row => min m row.length) r.length

/-- Embeds `Game2048._transpose`: `[list(t) for t in zip(*self.grid)]`. -/
def transposeGrid (g : List (List Nat)) : List (List Nat) :=
  (List.range (minRowLen g)).map fun c => g.map fun row => row.getD c 0

/-- Embeds `[self._merge(row) for row in self.grid]`, with the doubled values of all
rows collected (in row order, as the Python loop adds them to `score`). -/
def mergeGrid (size : Nat) (g : List (List Nat)) : List (List Nat) × List Nat :=
  ((g.map fun r => (merge size r).1), (g.map fun r => (merge size r).2).flatten)

/-- The directional transform of `Game2048.move` (identical in both files):
the grid the four direction branches leave in `self.grid`, together with the
doubled values added to `self.score` while computing it.  A direction string
outside the four enumerated ones matches no branch and leaves the grid
untouched. -/
def transform (d : String) (size : Nat) (g : List (List Nat)) :
    List (List Nat) × List Nat :=
  if d = "left" then mergeGrid size g
  else if d = "right" then
    (reverseRows (mergeGrid size (reverseRows g)).1,
     (mergeGrid size (reverseRows g)).2)
  else if d = "up" then
    (transposeGrid (mergeGrid size (transposeGrid g)).1,
     (mergeGrid size (transposeGrid g)).2)
  else if d = "down" then
    (transposeGrid (reverseRows (mergeGrid size (reverseRows (transposeGrid g))).1),
     (mergeGrid size (reverseRows (transposeGrid g))).2)
  else (g, [])

/-- Embeds `Game2048.get_empty_cells`: the `(r, c)` with `grid[r][c] == 0`, row by
row. -/
def get_empty_cells (size : Nat) (g : List (List Nat)) : List (Nat × Nat) :=
  ((List.range size).flatMap fun r => (List.range size).map fun c => (r, c)).filter
    fun rc => decide ((g.getD rc.1 []).getD rc.2 0 = 0)

/-- Embeds `Game2048.can_move` (identical in both files). -/
def can_move (size : Nat) (g : List (List Nat)) : Bool :=
  if get_empty_cells size g ≠ [] then true
  else
    (List.range size).any fun r => (List.range size).any fun c =>
      (decide (c < size - 1) &&
        decide ((g.getD r []).getD c 0 = (g.getD r []).getD (c + 1) 0)) ||
      (decide (r < size - 1) &&
        decide ((g.getD r []).getD c 0 = (g.getD (r + 1) []).getD c 0))

/-- A history snapshot: the `(grid, score, game_over)` tuple returned by
`Game2048.get_state`. -/
structure Snap where
  grid : List (List Nat)
  score : Nat
  game_over : Bool
deriving DecidableEq, Repr

/-- The mutable fields of a `Game2048` instance.  The stacks hold their top
at the head (Python pushes and pops at the end of a list; only which end is
the top is a choice of orientation). -/
structure GState where
  size : Nat
  score : Nat
  game_over : Bool
  grid : List (List Nat)
  undo_stack : List Snap
  redo_stack : List Snap
deriving DecidableEq, Repr

/-- Embeds `Game2048.get_state`: a deep copy of `(grid, score, game_over)` (copying
is the identity on values). -/
def get_state (s : GState) : Snap :=
  ⟨s.grid, s.score, s.game_over⟩

/-- Embeds `Game2048.set_state`. -/
def set_state (s : GState) (st : Snap) : GState :=
  { s with grid := st.grid, score := st.score, game_over := st.game_over }

/-- Embeds `Game2048.save_state`: push the current state on the undo stack, clear
the redo stack. -/
def save_state (s : GState) : GState :=
  { s with undo_stack := get_state s :: s.undo_stack, redo_stack := [] }

/-- Embeds `Game2048.undo` (identical in both files): only when the undo stack holds
more than one entry, push the current state on the redo stack, pop, and
restore the new top. -/
def undo (s : GState) : GState × Bool :=
  match s.undo_stack with
  | _ :: b :: rest =>
    (set_state { s with redo_stack := get_state s :: s.redo_stack,
                        undo_stack := b :: rest } b, true)
  | _ => (s, false)

/-- Embeds `Game2048.redo` (identical in both files): only when the redo stack is
nonempty, pop its top, restore it, and push the restored state on the undo
stack. -/
def redo (s : GState) : GState × Bool :=
  match s.redo_stack with
  | st :: rest =>
    let s1 := set_state { s with redo_stack := rest } st
    ({ s1 with undo_stack := get_state s1 :: s1.undo_stack }, true)
  | [] => (s, false)

/-- Embeds `self.grid[r][c] = v`, as a value update of the nested lists. -/
def setCell (g : List (List Nat)) (r c v : Nat) : List (List Nat) :=
  g.set r ((g.getD r []).set c v)

/-- Embeds `Game2048.add_new_tile` (identical in both files): when an empty cell
exists, write 2 or 4 into one of them.  `random.choice` becomes the index
`idx % length` into the empty-cell list and `random.random() < 0.9` becomes
the flag `two`. -/
def add_new_tile (s : GState) (idx : Nat) (two : Bool) : GState :=
  let e := get_empty_cells s.size s.grid
  if e = [] then s
  else
    let rc := e.getD (idx % e.length) (0, 0)
    { s with grid := setCell s.grid rc.1 rc.2 (if two then 2 else 4) }

/-- The state right after the direction branches of `move` ran: `self.grid`
holds the transform's result and `self.score` was increased inside `_merge`
while computing it (this happens before the change check). -/
def afterTransform (s : GState) (d : String) : GState :=
  { s with grid := (transform d s.size s.grid).1,
           score := s.score + (transform d s.size s.grid).2.sum }

/-- The state after the changed branch of `move` spawned a tile and saved a
snapshot. -/
def afterSpawn (s : GState) (d : String) (idx : Nat) (two : Bool) : GState :=
  save_state (add_new_tile (afterTransform s d) idx two)

/-- Embeds `Game2048.move` of the tkinter file: the grid after the direction
branches is compared with its pre-move value, and only a changed grid spawns
a tile, saves a snapshot and re-evaluates `can_move`.  The Python method
returns `None` on every path, so only the state is returned; `move1_ret`
below is its return value. -/
def move1 (s : GState) (d : String) (idx : Nat) (two : Bool) : GState :=
  if s.game_over then s
  else if (transform d s.size s.grid).1 ≠ s.grid then
    if can_move (afterSpawn s d idx two).size (afterSpawn s d idx two).grid
    then afterSpawn s d idx two
    else { afterSpawn s d idx two with game_over := true }
  else afterTransform s d

/-- The value the tkinter file's `move` returns: `None`, on every path. -/
def move1_ret (_s : GState) (_d : String) (_idx : Nat) (_two : Bool) :
    Option Bool :=
  none

/-- Embeds `Game2048.move` of the PyQt6 file: the same state transition as `move1`,
returning in addition the boolean `moved`. -/
def move2 (s : GState) (d : String) (idx : Nat) (two : Bool) : GState × Bool :=
  if s.game_over then (s, false)
  else if (transform d s.size s.grid).1 ≠ s.grid then
    (if can_move (afterSpawn s d idx two).size (afterSpawn s d idx two).grid
     then afterSpawn s d idx two
     else { afterSpawn s d idx two with game_over := true }, true)
  else (afterTransform s d, false)

/-- Embeds `Game2048.__init__` (identical in both files): zero grid, two spawned
tiles, one saved snapshot.  `i1, t1` and `i2, t2` are the random choices of
the two spawns. -/
def init (size : Nat) (i1 : Nat) (t1 : Bool) (i2 : Nat) (t2 : Bool) : GState :=
  let s0 : GState :=
    { size := size, score := 0, game_over := false,
      grid := List.replicate size (List.replicate size 0),
      undo_stack := [], redo_stack := [] }
  save_state (add_new_tile (add_new_tile s0 i1 t1) i2 t2)

/-- One call into the engine: a `move` with its random choices, an `undo`, or
a `redo`. -/
inductive Op where
  | mv (d : String) (idx : Nat) (two : Bool)
  | un
  | re
deriving DecidableEq, Repr

/-- One engine call of the tkinter version. -/
def step (s : GState) : Op → GState
  | .mv d idx two => move1 s d idx two
  | .un => (undo s).1
  | .re => (redo s).1

/-- A sequence of engine calls of the tkinter version. -/
def run (s : GState) (ops : List Op) : GState :=
  ops.foldl step s

/-- One engine call of the PyQt6 version (return values discarded). -/
def step2 (s : GState) : Op → GState
  | .mv d idx two => (move2 s d idx two).1
  | .un => (undo s).1
  | .re => (redo s).1

/-- A sequence of engine calls of the PyQt6 version. -/
def run2 (s : GState) (ops : List Op) : GState :=
  ops.foldl step2 s

/-- The number of nonzero cells of a row. -/
def countNZ (l : List Nat) : Nat :=
  (l.filter fun v => decide (v ≠ 0)).length

/-- The number of nonzero cells of a grid. -/
def countNZGrid (g : List (List Nat)) : Nat :=
  (g.map countNZ).sum

/-- The sum of all cells of a grid. -/
def gridSum (g : List (List Nat)) : Nat :=
  (g.map List.sum).sum

/-- A well-formed `size × size` grid. -/
def WF (size : Nat) (g : List (List Nat)) : Prop :=
  g.length = size ∧ ∀ row ∈ g, row.length = size

/-- Every nonzero cell holds a power of two. -/
def PowGrid (g : List (List Nat)) : Prop :=
  ∀ row ∈ g, ∀ v ∈ row, v ≠ 0 → ∃ k, v = 2 ^ k

/-- The spec's characterisation of when a move is possible: an empty cell, or
two adjacent (row- or column-wise) equal nonzero cells. -/
def specMovable (size : Nat) (g : List (List Nat)) : Prop :=
  (∃ r < size, ∃ c < size, (g.getD r []).getD c 0 = 0) ∨
  (∃ r < size, ∃ c, c + 1 < size ∧ (g.getD r []).getD c 0 ≠ 0 ∧
    (g.getD r []).getD c 0 = (g.getD r []).getD (c + 1) 0) ∨
  (∃ r, r + 1 < size ∧ ∃ c < size, (g.getD r []).getD c 0 ≠ 0 ∧
    (g.getD r []).getD c 0 = (g.getD (r + 1) []).getD c 0)

/-! ## The reference-passing model

Python's `set_state` installs a snapshot's grid object as the live grid
without copying, while `add_new_tile` writes into the live grid object in
place; whether a stored snapshot can be corrupted is a question about object
identity.  Here the same methods are embedded over a store of grid objects:
`store` maps references to grid values, the live grid and every snapshot hold
a reference, `get_state`'s `deepcopy` allocates a fresh reference, and
rebinding `self.grid` to a freshly built list (every direction branch of
`move`) also allocates.  The temporaries built inside a direction branch are
never referenced by any snapshot, so the branch is modelled as one allocation
of its final grid. -/

/-- A history snapshot of the reference-passing model: the grid is held by
reference into the store. -/
structure HSnap where
  ref : Nat
  score : Nat
  game_over : Bool
deriving DecidableEq, Repr

/-- A `Game2048` instance at the level of object identity: `store` holds
every grid object ever allocated, `ref` is the live grid. -/
structure HState where
  size : Nat
  store : List (List (List Nat))
  ref : Nat
  score : Nat
  game_over : Bool
  undo_stack : List HSnap
  redo_stack : List HSnap
deriving DecidableEq, Repr

/-- The contents of the grid object a reference names. -/
def lookupStore (s : HState) (i : Nat) : List (List Nat) :=
  s.store.getD i []

/-- Embeds `get_state` with an explicit `deepcopy`: allocate a fresh grid object
holding a copy of the live grid and return a snapshot naming it. -/
def hget_state (s : HState) : HState × HSnap :=
  ({ s with store := s.store ++ [lookupStore s s.ref] },
   ⟨s.store.length, s.score, s.game_over⟩)

/-- Embeds `set_state`: installs the snapshot's grid reference as the live grid
without copying. -/
def hset_state (s : HState) (sn : HSnap) : HState :=
  { s with ref := sn.ref, score := sn.score, game_over := sn.game_over }

/-- Embeds `save_state` in the reference-passing model. -/
def hsave_state (s : HState) : HState :=
  let p := hget_state s
  { p.1 with undo_stack := p.2 :: p.1.undo_stack, redo_stack := [] }

/-- Embeds `undo` in the reference-passing model: the restored grid is the one the
undo stack's new top names, uncopied. -/
def hundo (s : HState) : HState × Bool :=
  match s.undo_stack with
  | _ :: b :: rest =>
    let p := hget_state s
    (hset_state { p.1 with redo_stack := p.2 :: p.1.redo_stack,
                           undo_stack := b :: rest } b, true)
  | _ => (s, false)

/-- Embeds `redo` in the reference-passing model. -/
def hredo (s : HState) : HState × Bool :=
  match s.redo_stack with
  | sn :: rest =>
    let s1 := hset_state { s with redo_stack := rest } sn
    let p := hget_state s1
    ({ p.1 with undo_stack := p.2 :: p.1.undo_stack }, true)
  | [] => (s, false)

/-- Embeds `add_new_tile` in the reference-passing model: `self.grid[r][c] = v`
mutates the live grid object in place, i.e. overwrites the store at `ref`. -/
def haddtile (s : HState) (idx : Nat) (two : Bool) : HState :=
  if get_empty_cells s.size (lookupStore s s.ref) = [] then s
  else
    { s with store :=
        s.store.set s.ref (setCell (lookupStore s s.ref)
          ((get_empty_cells s.size (lookupStore s s.ref)).getD
            (idx % (get_empty_cells s.size (lookupStore s s.ref)).length)
            (0, 0)).1
          ((get_empty_cells s.size (lookupStore s s.ref)).getD
            (idx % (get_empty_cells s.size (lookupStore s s.ref)).length)
            (0, 0)).2
          (if two then 2 else 4)) }

/-- The state after a recognised direction branch ran in the
reference-passing model: `self.grid` was rebound to a freshly allocated
object holding the transform's result, and `self.score` was increased inside
`_merge`. -/
def hAfterTransform (s : HState) (d : String) : HState :=
  { s with store := s.store ++ [(transform d s.size (lookupStore s s.ref)).1],
           ref := s.store.length,
           score := s.score + (transform d s.size (lookupStore s s.ref)).2.sum }

/-- The state after the changed branch of `move` spawned a tile (an in-place
write) and saved a snapshot, in the reference-passing model. -/
def hAfterSpawn (s1 : HState) (idx : Nat) (two : Bool) : HState :=
  hsave_state (haddtile s1 idx two)

/-- Embeds `move` in the reference-passing model: a recognised direction rebinds
`self.grid` to a freshly allocated object before comparing with the saved
pre-move value; an unrecognised direction leaves the live reference (and any
aliasing) in place, and its grid trivially equals the pre-move value, so the
changed branch is not taken. -/
def hmove (s : HState) (d : String) (idx : Nat) (two : Bool) : HState :=
  if s.game_over then s
  else if d = "left" ∨ d = "right" ∨ d = "up" ∨ d = "down" then
    if lookupStore (hAfterTransform s d) (hAfterTransform s d).ref
        ≠ lookupStore s s.ref then
      if can_move (hAfterSpawn (hAfterTransform s d) idx two).size
          (lookupStore (hAfterSpawn (hAfterTransform s d) idx two)
            (hAfterSpawn (hAfterTransform s d) idx two).ref)
      then hAfterSpawn (hAfterTransform s d) idx two
      else { hAfterSpawn (hAfterTransform s d) idx two with game_over := true }
    else hAfterTransform s d
  else s

/-- One engine call in the reference-passing model. -/
def hstep (s : HState) : Op → HState
  | .mv d idx two => hmove s d idx two
  | .un => (hundo s).1
  | .re => (hredo s).1

/-- A sequence of engine calls in the reference-passing model. -/
def hrun (s : HState) (ops : List Op) : HState :=
  ops.foldl hstep s

/-- Embeds `__init__` in the reference-passing model: one grid object is allocated
by the constructor. -/
def hinit (size : Nat) (i1 : Nat) (t1 : Bool) (i2 : Nat) (t2 : Bool) : HState :=
  let s0 : HState :=
    { size := size,
      store := [List.replicate size (List.replicate size 0)],
      ref := 0, score := 0, game_over := false,
      undo_stack := [], redo_stack := [] }
  hsave_state (haddtile (haddtile s0 i1 t1) i2 t2)

/-- The grid references held by snapshots on the two history stacks. -/
def stackRefs (s : HState) : List Nat :=
  s.undo_stack.map HSnap.ref ++ s.redo_stack.map HSnap.ref

/-- Every grid held by the live state or a history snapshot has only
power-of-two nonzero cells. -/
def PowState (s : GState) : Prop :=
  PowGrid s.grid ∧ (∀ st ∈ s.undo_stack, PowGrid st.grid) ∧
    ∀ st ∈ s.redo_stack, PowGrid st.grid

/-- Every snapshot reference on the history stacks names an allocated store
position. -/
def HInv (s : HState) : Prop :=
  (∀ sn ∈ s.undo_stack, sn.ref < s.store.length) ∧
    ∀ sn ∈ s.redo_stack, sn.ref < s.store.length

/-- A sample state whose grid no direction can change. -/
def sampleNoop : GState :=
  ⟨2, 5, false, [[2, 4], [4, 2]], [], []⟩

/-- A sample state for which a left move merges the two 2-tiles. -/
def sampleMove : GState :=
  ⟨4, 0, false, [[2, 2, 0, 0], [0, 0, 0, 0], [0, 0, 0, 0], [0, 0, 0, 0]],
   [], []⟩

/-- A sample state carrying one undoable history entry. -/
def sampleHist : GState :=
  ⟨2, 8, false, [[4, 2], [0, 0]],
   [⟨[[4, 2], [0, 0]], 8, false⟩, ⟨[[2, 2], [0, 0]], 0, false⟩], []⟩

/-! ## Basic list lemmas -/

theorem getD_set_self {α : Type} {l : List α} {i : Nat} (a d : α)
    (h : i < l.length) : (l.set i a).getD i d = a := by
  rw [List.getD_eq_getElem?_getD, List.getElem?_set_self h]; rfl

theorem getD_set_ne {α : Type} {l : List α} {i j : Nat} (h : i ≠ j) (a d : α) :
    (l.set i a).getD j d = l.getD j d := by
  rw [List.getD_eq_getElem?_getD, List.getElem?_set_ne h, ← List.getD_eq_getElem?_getD]

theorem getD_mem_or {α : Type} (l : List α) (i : Nat) (d : α) :
    l.getD i d ∈ l ∨ l.getD i d = d := by
  by_cases h : i < l.length
  · left; rw [List.getD_eq_getElem l d h]; exact List.getElem_mem h
  · right; exact List.getD_eq_default l d (Nat.le_of_not_lt h)

theorem list_ext_getD {α : Type} {l₁ l₂ : List α} (d : α) (hlen : l₁.length = l₂.length)
    (h : ∀ i, i < l₁.length → l₁.getD i d = l₂.getD i d) : l₁ = l₂ := by
  refine List.ext_get hlen fun n h₁ h₂ => ?_
  have := h n h₁
  rwa [List.getD_eq_getElem l₁ d h₁, List.getD_eq_getElem l₂ d h₂,
    List.get_eq_getElem, List.get_eq_getElem] at *

theorem countNZ_cons (x : Nat) (t : List Nat) :
    countNZ (x :: t) = (if x ≠ 0 then 1 else 0) + countNZ t := by
  simp only [countNZ, List.filter_cons]
  by_cases h : x = 0 <;> simp [h, Nat.add_comm]

theorem countNZ_le_length (l : List Nat) : countNZ l ≤ l.length :=
  List.length_filter_le _ l

theorem countNZ_set (l : List Nat) (i : Nat) (a : Nat) (h : i < l.length) :
    countNZ (l.set i a) + (if l.getD i 0 ≠ 0 then 1 else 0)
      = countNZ l + (if a ≠ 0 then 1 else 0) := by
  induction l generalizing i with
  | nil => simp at h
  | cons x t ih =>
    cases i with
    | zero => simp only [List.set, countNZ_cons, List.getD_cons_zero]; omega
    | succ i =>
      have hi : i < t.length := by simpa using h
      have := ih i hi
      simp only [List.set, countNZ_cons, List.getD_cons_succ]
      omega

theorem sum_set (l : List Nat) (i : Nat) (a : Nat) (h : i < l.length) :
    (l.set i a).sum + l.getD i 0 = l.sum + a := by
  induction l generalizing i with
  | nil => simp at h
  | cons x t ih =>
    cases i with
    | zero => simp only [List.set, List.sum_cons, List.getD_cons_zero]; omega
    | succ i =>
      have hi : i < t.length := by simpa using h
      have := ih i hi
      simp only [List.set, List.sum_cons, List.getD_cons_succ]
      omega

theorem sum_filter_ne_zero (l : List Nat) :
    (l.filter fun v => decide (v ≠ 0)).sum = l.sum := by
  induction l with
  | nil => rfl
  | cons x t ih =>
    rw [List.filter_cons]
    by_cases h : x = 0
    · rw [if_neg (by simp [h]), ih, List.sum_cons, h, Nat.zero_add]
    · rw [if_pos (by simp [h]), List.sum_cons, List.sum_cons, ih]

theorem map_eq_self_mem {α : Type} {f : α → α} {l : List α} (h : l.map f = l) :
    ∀ x ∈ l, f x = x := by
  induction l with
  | nil => simp
  | cons x t ih =>
    simp only [List.map_cons, List.cons.injEq] at h
    intro y hy
    rcases List.mem_cons.mp hy with hy' | hy'
    · subst hy'; exact h.1
    · exact ih h.2 y hy'

/-! ## Lemmas on `compress` -/

theorem countNZ_compress (size : Nat) (row : List Nat) :
    countNZ (compress size row) = countNZ row := by
  simp only [countNZ, compress, List.filter_append, List.filter_filter,
    List.filter_replicate]
  simp

theorem length_compress (size : Nat) (row : List Nat) (h : row.length ≤ size) :
    (compress size row).length = size := by
  simp only [compress, List.length_append, List.length_replicate]
  have := List.length_filter_le (fun v => decide (v ≠ 0)) row
  omega

theorem sum_compress (size : Nat) (row : List Nat) :
    (compress size row).sum = row.sum := by
  simp only [compress, List.sum_append, List.sum_replicate, smul_zero, Nat.add_zero]
  exact sum_filter_ne_zero row

theorem mem_compress {size : Nat} {row : List Nat} {v : Nat}
    (h : v ∈ compress size row) : v ∈ row ∨ v = 0 := by
  simp only [compress, List.mem_append] at h
  rcases h with h | h
  · exact Or.inl (List.mem_filter.mp h).1
  · exact Or.inr (List.mem_replicate.mp h).2

theorem compress_eq_self {size : Nat} {row : List Nat}
    (h1 : countNZ row = row.length) (h2 : row.length = size) :
    compress size row = row := by
  have hf : row.filter (fun v => decide (v ≠ 0)) = row :=
    List.filter_eq_self.mpr (List.filter_length_eq_length.mp h1)
  have hc : compress size row = row.filter (fun v => decide (v ≠ 0)) ++
      List.replicate (size - (row.filter (fun v => decide (v ≠ 0))).length) 0 := rfl
  rw [hc, hf, h2, Nat.sub_self, List.replicate_zero, List.append_nil]

/-! ## Lemmas on the merge sweep -/

theorem mergeCond_bounds {row : List Nat} {i : Nat} (h : mergeCond row i = true) :
    i + 1 < row.length ∧ row.getD i 0 ≠ 0 ∧
      row.getD i 0 = row.getD (i + 1) 0 := by
  simp only [mergeCond, Bool.and_eq_true, decide_eq_true_eq] at h
  obtain ⟨h1, h2⟩ := h
  refine ⟨?_, h1, h2⟩
  by_contra hb
  rw [List.getD_eq_default row 0 (Nat.le_of_not_lt hb)] at h2
  exact h1 h2

theorem length_mergeSet {row : List Nat} {i : Nat} :
    (mergeSet row i).length = row.length := by
  simp [mergeSet]

theorem countNZ_mergeSet {row : List Nat} {i : Nat} (h : mergeCond row i = true) :
    countNZ (mergeSet row i) + 1 = countNZ row := by
  obtain ⟨hb, hnz, heq⟩ := mergeCond_bounds h
  have hi : i < row.length := by omega
  have e1 := countNZ_set row i (2 * row.getD i 0) hi
  have h2v : 2 * row.getD i 0 ≠ 0 := by
    intro hc; exact hnz (by omega)
  have hgd : (row.set i (2 * row.getD i 0)).getD (i + 1) 0 = row.getD (i + 1) 0 :=
    getD_set_ne (by omega) _ _
  have e2 := countNZ_set (row.set i (2 * row.getD i 0)) (i + 1) 0
    (by rw [List.length_set]; exact hb)
  rw [hgd, ← heq] at e2
  rw [if_pos hnz, if_pos h2v] at e1
  rw [if_pos hnz, if_neg (by simp)] at e2
  simp only [mergeSet]
  omega

theorem sum_mergeSet {row : List Nat} {i : Nat} (h : mergeCond row i = true) :
    (mergeSet row i).sum = row.sum := by
  obtain ⟨hb, hnz, heq⟩ := mergeCond_bounds h
  have hi : i < row.length := by omega
  have e1 := sum_set row i (2 * row.getD i 0) hi
  have hgd : (row.set i (2 * row.getD i 0)).getD (i + 1) 0 = row.getD (i + 1) 0 :=
    getD_set_ne (by omega) _ _
  have e2 := sum_set (row.set i (2 * row.getD i 0)) (i + 1) 0
    (by rw [List.length_set]; exact hb)
  rw [hgd, ← heq] at e2
  simp only [mergeSet]
  omega

theorem mergeIter_length (row : List Nat) (i k : Nat) :
    (mergeIter row i k).1.length = row.length := by
  induction k generalizing row i with
  | zero => rfl
  | succ k ih =>
    simp only [mergeIter]
    by_cases h : mergeCond row i = true
    · simp only [h, if_true]
      rw [ih (mergeSet row i) (i + 1), length_mergeSet]
    · simp only [h, if_false]
      exact ih row (i + 1)

theorem mergeIter_countNZ (row : List Nat) (i k : Nat) :
    countNZ (mergeIter row i k).1 + (mergeIter row i k).2.length = countNZ row := by
  induction k generalizing row i with
  | zero => simp [mergeIter]
  | succ k ih =>
    simp only [mergeIter]
    by_cases h : mergeCond row i = true
    · simp only [h, if_true, List.length_cons]
      have e1 := ih (mergeSet row i) (i + 1)
      have e2 := countNZ_mergeSet h
      omega
    · simp only [h, if_false]
      exact ih row (i + 1)

theorem mergeIter_sum (row : List Nat) (i k : Nat) :
    (mergeIter row i k).1.sum = row.sum := by
  induction k generalizing row i with
  | zero => rfl
  | succ k ih =>
    simp only [mergeIter]
    by_cases h : mergeCond row i = true
    · simp only [h, if_true]
      rw [ih (mergeSet row i) (i + 1), sum_mergeSet h]
    · simp only [h, if_false]
      exact ih row (i + 1)

theorem mergeIter_of_no_products {row : List Nat} {i k : Nat}
    (h : (mergeIter row i k).2 = []) : (mergeIter row i k).1 = row := by
  induction k generalizing row i with
  | zero => rfl
  | succ k ih =>
    by_cases hc : mergeCond row i = true
    · simp only [mergeIter, hc, if_true] at h
      exact absurd h (List.cons_ne_nil _ _)
    · simp only [mergeIter, hc, if_false] at h ⊢
      exact ih h

theorem mergeIter_pow {row : List Nat} (i k : Nat)
    (h : ∀ v ∈ row, v ≠ 0 → ∃ m, v = 2 ^ m) :
    ∀ v ∈ (mergeIter row i k).1, v ≠ 0 → ∃ m, v = 2 ^ m := by
  induction k generalizing row i with
  | zero => exact h
  | succ k ih =>
    by_cases hc : mergeCond row i = true
    · simp only [mergeIter, hc, if_true]
      refine ih (i + 1) fun v hv hvnz => ?_
      rcases List.mem_or_eq_of_mem_set hv with hv' | hv'
      · rcases List.mem_or_eq_of_mem_set hv' with hv'' | hv''
        · exact h v hv'' hvnz
        · obtain ⟨_, hnz, _⟩ := mergeCond_bounds hc
          have hmem : row.getD i 0 ∈ row := by
            rcases getD_mem_or row i 0 with hm | hm
            · exact hm
            · exact absurd hm hnz
          obtain ⟨m, hm⟩ := h _ hmem hnz
          exact ⟨m + 1, by rw [hv'', hm]; ring⟩
      · exact absurd hv' hvnz
    · simp only [mergeIter, hc, if_false]
      exact ih (i + 1) h

/-! ## Lemmas on `merge` of a full row -/

theorem merge_length (size : Nat) (row : List Nat) (h : row.length ≤ size) :
    (merge size row).1.length = size := by
  simp only [merge]
  apply length_compress
  rw [mergeIter_length, length_compress size row h]

theorem merge_countNZ (size : Nat) (row : List Nat) :
    countNZ (merge size row).1 + (merge size row).2.length = countNZ row := by
  simp only [merge]
  rw [countNZ_compress]
  have := mergeIter_countNZ (compress size row) 0 (size - 1)
  rw [countNZ_compress] at this
  exact this

theorem merge_sum (size : Nat) (row : List Nat) :
    (merge size row).1.sum = row.sum := by
  simp only [merge]
  rw [sum_compress, mergeIter_sum, sum_compress]

theorem merge_pow {size : Nat} {row : List Nat}
    (h : ∀ v ∈ row, v ≠ 0 → ∃ m, v = 2 ^ m) :
    ∀ v ∈ (merge size row).1, v ≠ 0 → ∃ m, v = 2 ^ m := by
  intro v hv hvnz
  rcases mem_compress hv with hv' | hv'
  · refine mergeIter_pow 0 (size - 1) (fun w hw hwnz => ?_) v hv' hvnz
    rcases mem_compress hw with hw' | hw'
    · exact h w hw' hwnz
    · exact absurd hw' hwnz
  · exact absurd hv' hvnz

theorem merge_of_full_no_products {size : Nat} {row : List Nat}
    (hfull : countNZ row = row.length) (hlen : row.length = size)
    (hp : (merge size row).2 = []) : (merge size row).1 = row := by
  have hc : compress size row = row := compress_eq_self hfull hlen
  simp only [merge] at hp ⊢
  rw [hc] at hp ⊢
  rw [mergeIter_of_no_products hp, hc]

/-! ## Lemmas on `reverseRows` -/

theorem reverseRows_reverseRows (g : List (List Nat)) :
    reverseRows (reverseRows g) = g := by
  simp [reverseRows, List.map_map, Function.comp_def]

theorem WF_reverseRows {n : Nat} {g : List (List Nat)} (hG : WF n g) :
    WF n (reverseRows g) := by
  refine ⟨by simp [reverseRows, hG.1], fun row hrow => ?_⟩
  simp only [reverseRows, List.mem_map] at hrow
  obtain ⟨r, hr, hrev⟩ := hrow
  rw [← hrev, List.length_reverse]
  exact hG.2 r hr

theorem countNZ_reverse (l : List Nat) : countNZ l.reverse = countNZ l := by
  simp [countNZ, List.filter_reverse]

theorem countNZGrid_reverseRows (g : List (List Nat)) :
    countNZGrid (reverseRows g) = countNZGrid g := by
  simp only [countNZGrid, reverseRows, List.map_map]
  congr 1
  exact List.map_congr_left fun r _ => countNZ_reverse r

theorem gridSum_reverseRows (g : List (List Nat)) :
    gridSum (reverseRows g) = gridSum g := by
  simp only [gridSum, reverseRows, List.map_map]
  congr 1
  exact List.map_congr_left fun r _ => List.sum_reverse r

theorem PowGrid_reverseRows {g : List (List Nat)} (h : PowGrid g) :
    PowGrid (reverseRows g) := by
  intro row hrow v hv hvnz
  simp only [reverseRows, List.mem_map] at hrow
  obtain ⟨r, hr, hrev⟩ := hrow
  rw [← hrev, List.mem_reverse] at hv
  exact h r hr v hv hvnz

/-! ## Range-sum characterisations -/

theorem countNZ_eq_range_sum (l : List Nat) :
    countNZ l = ∑ i ∈ Finset.range l.length, (if l.getD i 0 ≠ 0 then 1 else 0) := by
  induction l with
  | nil => simp [countNZ]
  | cons x t ih =>
    rw [countNZ_cons, List.length_cons, Finset.sum_range_succ']
    simp only [List.getD_cons_succ, List.getD_cons_zero]
    omega

theorem sum_eq_range_sum (l : List Nat) :
    l.sum = ∑ i ∈ Finset.range l.length, l.getD i 0 := by
  induction l with
  | nil => simp
  | cons x t ih =>
    rw [List.sum_cons, List.length_cons, Finset.sum_range_succ']
    simp only [List.getD_cons_succ, List.getD_cons_zero]
    omega

theorem map_sum_eq_range_sum (g : List (List Nat)) (f : List Nat → Nat) :
    (g.map f).sum = ∑ r ∈ Finset.range g.length, f (g.getD r []) := by
  induction g with
  | nil => simp
  | cons x t ih =>
    rw [List.map_cons, List.sum_cons, List.length_cons, Finset.sum_range_succ']
    simp only [List.getD_cons_succ, List.getD_cons_zero]
    omega

theorem getD_mem_of_lt {α : Type} {g : List α} {r : Nat} (d : α)
    (h : r < g.length) : g.getD r d ∈ g := by
  rw [List.getD_eq_getElem _ _ h]; exact List.getElem_mem h

theorem gridAgg_eq_entry_sum (h : Nat → Nat) (rowAgg : List Nat → Nat)
    (hrow : ∀ l, rowAgg l = ∑ i ∈ Finset.range l.length, h (l.getD i 0))
    {n : Nat} {g : List (List Nat)} (hG : WF n g) :
    (g.map rowAgg).sum
      = ∑ r ∈ Finset.range n, ∑ c ∈ Finset.range n, h ((g.getD r []).getD c 0) := by
  rw [map_sum_eq_range_sum, hG.1]
  refine Finset.sum_congr rfl fun r hr => ?_
  rw [hrow]
  have hrlt : r < g.length := hG.1 ▸ Finset.mem_range.mp hr
  rw [hG.2 _ (getD_mem_of_lt [] hrlt)]

/-! ## Lemmas on `transposeGrid` -/

theorem foldl_min_const {n : Nat} (rs : List (List Nat))
    (h : ∀ r ∈ rs, r.length = n) :
    rs.foldl (fun m row => min m row.length) n = n := by
  induction rs with
  | nil => rfl
  | cons x t ih =>
    simp only [List.foldl_cons, h x (by simp), min_self]
    exact ih fun r hr => h r (by simp [hr])

theorem minRowLen_eq {n : Nat} {g : List (List Nat)} (hG : WF n g)
    (hne : g ≠ []) : minRowLen g = n := by
  match g, hne with
  | r :: rs, _ =>
    have hr : r.length = n := hG.2 r (by simp)
    simp only [minRowLen, hr]
    exact foldl_min_const rs fun x hx => hG.2 x (by simp [hx])

theorem length_transposeGrid {n : Nat} {g : List (List Nat)} (hG : WF n g) :
    (transposeGrid g).length = n := by
  by_cases hne : g = []
  · subst hne
    have h0 : n = 0 := by simpa using hG.1.symm
    simp [transposeGrid, minRowLen, h0]
  · simp [transposeGrid, minRowLen_eq hG hne]

theorem transposeGrid_row {n : Nat} {g : List (List Nat)} (hG : WF n g)
    {r : Nat} (hr : r < n) :
    (transposeGrid g).getD r [] = g.map fun row => row.getD r 0 := by
  have hne : g ≠ [] := by
    intro h; subst h
    rw [← hG.1] at hr; simp at hr
  simp only [transposeGrid, minRowLen_eq hG hne]
  rw [List.getD_eq_getElem _ _ (by simpa using hr), List.getElem_map,
    List.getElem_range]

theorem transposeGrid_entry {n : Nat} {g : List (List Nat)} (hG : WF n g)
    {r c : Nat} (hr : r < n) (hc : c < n) :
    ((transposeGrid g).getD r []).getD c 0 = (g.getD c []).getD r 0 := by
  rw [transposeGrid_row hG hr]
  have hcg : c < g.length := hG.1 ▸ hc
  rw [List.getD_eq_getElem _ _ (by simpa using hcg), List.getElem_map,
    List.getD_eq_getElem g [] hcg]

theorem WF_transposeGrid {n : Nat} {g : List (List Nat)} (hG : WF n g) :
    WF n (transposeGrid g) := by
  refine ⟨length_transposeGrid hG, fun row hrow => ?_⟩
  simp only [transposeGrid, List.mem_map] at hrow
  obtain ⟨c, _, hc⟩ := hrow
  rw [← hc, List.length_map, hG.1]

theorem transposeGrid_transposeGrid {n : Nat} {g : List (List Nat)}
    (hG : WF n g) : transposeGrid (transposeGrid g) = g := by
  have hT := WF_transposeGrid hG
  have hTT := WF_transposeGrid hT
  refine list_ext_getD [] (by rw [hTT.1, hG.1]) fun r hrl => ?_
  have hr : r < n := by rwa [hTT.1] at hrl
  refine list_ext_getD 0 ?_ fun c hcl => ?_
  · rw [hTT.2 _ (getD_mem_of_lt [] hrl),
      hG.2 _ (getD_mem_of_lt [] (by rw [hG.1]; exact hr))]
  · have hc : c < n := by
      rwa [hTT.2 _ (getD_mem_of_lt [] hrl)] at hcl
    rw [transposeGrid_entry hT hr hc, transposeGrid_entry hG hc hr]

theorem entry_sum_transposeGrid (h : Nat → Nat) {n : Nat}
    {g : List (List Nat)} (hG : WF n g) :
    (∑ r ∈ Finset.range n, ∑ c ∈ Finset.range n,
        h (((transposeGrid g).getD r []).getD c 0))
      = ∑ r ∈ Finset.range n, ∑ c ∈ Finset.range n,
        h ((g.getD r []).getD c 0) := by
  have step : (∑ r ∈ Finset.range n, ∑ c ∈ Finset.range n,
      h (((transposeGrid g).getD r []).getD c 0))
      = ∑ r ∈ Finset.range n, ∑ c ∈ Finset.range n, h ((g.getD c []).getD r 0) :=
    Finset.sum_congr rfl fun r hr => Finset.sum_congr rfl fun c hc => by
      rw [transposeGrid_entry hG (Finset.mem_range.mp hr) (Finset.mem_range.mp hc)]
  rw [step, Finset.sum_comm]

theorem countNZGrid_transposeGrid {n : Nat} {g : List (List Nat)} (hG : WF n g) :
    countNZGrid (transposeGrid g) = countNZGrid g := by
  have hrow := countNZ_eq_range_sum
  show (List.map countNZ (transposeGrid g)).sum = (List.map countNZ g).sum
  rw [gridAgg_eq_entry_sum (fun x => if x ≠ 0 then 1 else 0) countNZ hrow
      (WF_transposeGrid hG),
    gridAgg_eq_entry_sum (fun x => if x ≠ 0 then 1 else 0) countNZ hrow hG,
    entry_sum_transposeGrid (fun x => if x ≠ 0 then 1 else 0) hG]

theorem gridSum_transposeGrid {n : Nat} {g : List (List Nat)} (hG : WF n g) :
    gridSum (transposeGrid g) = gridSum g := by
  have hrow := sum_eq_range_sum
  show (List.map List.sum (transposeGrid g)).sum = (List.map List.sum g).sum
  rw [gridAgg_eq_entry_sum id List.sum hrow (WF_transposeGrid hG),
    gridAgg_eq_entry_sum id List.sum hrow hG,
    entry_sum_transposeGrid id hG]

theorem PowGrid_transposeGrid {g : List (List Nat)} (h : PowGrid g) :
    PowGrid (transposeGrid g) := by
  intro row hrow v hv hvnz
  simp only [transposeGrid, List.mem_map] at hrow
  obtain ⟨c, _, hc⟩ := hrow
  rw [← hc, List.mem_map] at hv
  obtain ⟨r, hrg, hr⟩ := hv
  rcases getD_mem_or r c 0 with hm | hm
  · exact h r hrg v (hr ▸ hm) hvnz
  · rw [hm] at hr
    exact absurd hr.symm hvnz

/-! ## Lemmas on `mergeGrid` -/

theorem sum_map_add {α : Type} (g : List α) (A B : α → Nat) :
    (g.map fun r => A r + B r).sum = (g.map A).sum + (g.map B).sum := by
  induction g with
  | nil => rfl
  | cons x t ih =>
    simp only [List.map_cons, List.sum_cons, ih]
    omega

theorem map_eq_self_of_forall {α : Type} {f : α → α} {l : List α}
    (h : ∀ x ∈ l, f x = x) : l.map f = l := by
  induction l with
  | nil => rfl
  | cons x t ih =>
    rw [List.map_cons, h x (by simp), ih fun y hy => h y (by simp [hy])]

theorem WF_mergeGrid {n : Nat} {g : List (List Nat)} (hG : WF n g) :
    WF n (mergeGrid n g).1 := by
  refine ⟨by simp [mergeGrid, hG.1], fun row hrow => ?_⟩
  simp only [mergeGrid, List.mem_map] at hrow
  obtain ⟨r, hr, heq⟩ := hrow
  rw [← heq]
  exact merge_length n r (le_of_eq (hG.2 r hr))

theorem countNZGrid_mergeGrid (size : Nat) (g : List (List Nat)) :
    countNZGrid (mergeGrid size g).1 + (mergeGrid size g).2.length
      = countNZGrid g := by
  simp only [mergeGrid, countNZGrid, List.map_map, List.length_flatten,
    Function.comp_def]
  rw [← sum_map_add g (fun r => countNZ ((merge size r).1))
    (fun r => (merge size r).2.length)]
  exact congrArg List.sum (List.map_congr_left fun r _ => merge_countNZ size r)

theorem gridSum_mergeGrid (size : Nat) (g : List (List Nat)) :
    gridSum (mergeGrid size g).1 = gridSum g := by
  simp only [mergeGrid, gridSum, List.map_map]
  exact congrArg List.sum (List.map_congr_left fun r _ => merge_sum size r)

theorem PowGrid_mergeGrid {size : Nat} {g : List (List Nat)} (h : PowGrid g) :
    PowGrid (mergeGrid size g).1 := by
  intro row hrow v hv hvnz
  simp only [mergeGrid, List.mem_map] at hrow
  obtain ⟨r, hr, heq⟩ := hrow
  exact merge_pow (h r hr) v (heq ▸ hv) hvnz

theorem mergeGrid_of_full {size : Nat} {g : List (List Nat)}
    (hfull : ∀ row ∈ g, countNZ row = row.length)
    (hlen : ∀ row ∈ g, row.length = size)
    (hp : (mergeGrid size g).2 = []) : (mergeGrid size g).1 = g := by
  have hrows : ∀ r ∈ g, (merge size r).2 = [] := by
    intro r hr
    refine List.flatten_eq_nil_iff.mp hp _ ?_
    exact List.mem_map.mpr ⟨r, hr, rfl⟩
  exact map_eq_self_of_forall fun r hr =>
    merge_of_full_no_products (hfull r hr) (hlen r hr) (hrows r hr)

/-! ## Lemmas on `transform` -/

theorem WF_transform {n : Nat} {g : List (List Nat)} (hG : WF n g)
    (d : String) : WF n (transform d n g).1 := by
  unfold transform
  split_ifs
  · exact WF_mergeGrid hG
  · exact WF_reverseRows (WF_mergeGrid (WF_reverseRows hG))
  · exact WF_transposeGrid (WF_mergeGrid (WF_transposeGrid hG))
  · exact WF_transposeGrid (WF_reverseRows
      (WF_mergeGrid (WF_reverseRows (WF_transposeGrid hG))))
  · exact hG

theorem transform_countNZ {n : Nat} {g : List (List Nat)} (hG : WF n g)
    (d : String) :
    countNZGrid (transform d n g).1 + (transform d n g).2.length
      = countNZGrid g := by
  unfold transform
  split_ifs
  · exact countNZGrid_mergeGrid n g
  · have h1 := countNZGrid_mergeGrid n (reverseRows g)
    rw [countNZGrid_reverseRows g] at h1
    rw [countNZGrid_reverseRows]
    exact h1
  · have h1 := countNZGrid_mergeGrid n (transposeGrid g)
    rw [countNZGrid_transposeGrid hG] at h1
    rw [countNZGrid_transposeGrid (WF_mergeGrid (WF_transposeGrid hG))]
    exact h1
  · have h1 := countNZGrid_mergeGrid n (reverseRows (transposeGrid g))
    rw [countNZGrid_reverseRows, countNZGrid_transposeGrid hG] at h1
    rw [countNZGrid_transposeGrid (WF_reverseRows
      (WF_mergeGrid (WF_reverseRows (WF_transposeGrid hG)))),
      countNZGrid_reverseRows]
    exact h1
  · simp

theorem gridSum_transform {n : Nat} {g : List (List Nat)} (hG : WF n g)
    (d : String) : gridSum (transform d n g).1 = gridSum g := by
  unfold transform
  split_ifs
  · exact gridSum_mergeGrid n g
  · rw [gridSum_reverseRows, gridSum_mergeGrid, gridSum_reverseRows]
  · rw [gridSum_transposeGrid (WF_mergeGrid (WF_transposeGrid hG)),
      gridSum_mergeGrid, gridSum_transposeGrid hG]
  · rw [gridSum_transposeGrid (WF_reverseRows
      (WF_mergeGrid (WF_reverseRows (WF_transposeGrid hG)))),
      gridSum_reverseRows, gridSum_mergeGrid, gridSum_reverseRows,
      gridSum_transposeGrid hG]
  · rfl

theorem PowGrid_transform {n : Nat} {g : List (List Nat)} (h : PowGrid g)
    (d : String) : PowGrid (transform d n g).1 := by
  unfold transform
  split_ifs
  · exact PowGrid_mergeGrid h
  · exact PowGrid_reverseRows (PowGrid_mergeGrid (PowGrid_reverseRows h))
  · exact PowGrid_transposeGrid (PowGrid_mergeGrid (PowGrid_transposeGrid h))
  · exact PowGrid_transposeGrid (PowGrid_reverseRows
      (PowGrid_mergeGrid (PowGrid_reverseRows (PowGrid_transposeGrid h))))
  · exact h

theorem countNZGrid_le {n : Nat} {g : List (List Nat)} (hG : WF n g) :
    countNZGrid g ≤ n * n := by
  have h1 : ∀ x ∈ g.map countNZ, x ≤ n := by
    intro x hx
    obtain ⟨r, hr, hrx⟩ := List.mem_map.mp hx
    rw [← hrx]
    exact le_of_le_of_eq (countNZ_le_length r) (hG.2 r hr)
  have h2 := List.sum_le_card_nsmul (g.map countNZ) n h1
  rw [List.length_map, hG.1, smul_eq_mul] at h2
  exact h2

theorem all_eq_of_sum_eq {l : List Nat} {b : Nat} (hle : ∀ x ∈ l, x ≤ b)
    (hsum : l.sum = l.length * b) : ∀ x ∈ l, x = b := by
  induction l with
  | nil => simp
  | cons x t ih =>
    have hxb : x ≤ b := hle x (by simp)
    have htb : t.sum ≤ t.length * b := by
      have := List.sum_le_card_nsmul t b fun y hy => hle y (by simp [hy])
      rwa [smul_eq_mul] at this
    rw [List.sum_cons, List.length_cons] at hsum
    have hx : x = b := by
      have : (t.length + 1) * b = t.length * b + b := by ring
      omega
    intro y hy
    rcases List.mem_cons.mp hy with hy' | hy'
    · rw [hy', hx]
    · refine ih (fun z hz => hle z (by simp [hz])) ?_ y hy'
      have : (t.length + 1) * b = t.length * b + b := by ring
      omega

theorem full_rows_of_countNZGrid_eq {n : Nat} {g : List (List Nat)}
    (hG : WF n g) (h : countNZGrid g = n * n) :
    ∀ row ∈ g, countNZ row = row.length := by
  have h1 : ∀ x ∈ g.map countNZ, x ≤ n := by
    intro x hx
    obtain ⟨r, hr, hrx⟩ := List.mem_map.mp hx
    rw [← hrx]
    exact le_of_le_of_eq (countNZ_le_length r) (hG.2 r hr)
  have h2 : (g.map countNZ).sum = (g.map countNZ).length * n := by
    rw [List.length_map, hG.1]
    exact h
  intro row hrow
  have := all_eq_of_sum_eq h1 h2 (countNZ row) (List.mem_map.mpr ⟨row, hrow, rfl⟩)
  rw [this, hG.2 row hrow]

theorem full_preserved_reverseRows {g : List (List Nat)}
    (h : ∀ row ∈ g, countNZ row = row.length) :
    ∀ row ∈ reverseRows g, countNZ row = row.length := by
  intro row hrow
  obtain ⟨r, hr, hrev⟩ := List.mem_map.mp hrow
  rw [← hrev, countNZ_reverse, List.length_reverse]
  exact h r hr

theorem countNZ_eq_length_iff {l : List Nat} :
    countNZ l = l.length ↔ ∀ v ∈ l, v ≠ 0 := by
  constructor
  · intro h v hv
    have := List.filter_length_eq_length.mp h v hv
    simpa using this
  · intro h
    exact List.filter_length_eq_length.mpr fun v hv => by simpa using h v hv

theorem full_preserved_transposeGrid {n : Nat} {g : List (List Nat)}
    (hG : WF n g) (h : ∀ row ∈ g, countNZ row = row.length) :
    ∀ row ∈ transposeGrid g, countNZ row = row.length := by
  intro row hrow
  rw [countNZ_eq_length_iff]
  intro v hv
  have hT := WF_transposeGrid hG
  obtain ⟨r, hrlt, hre⟩ := List.mem_iff_getElem.mp hrow
  obtain ⟨c, hclt, hce⟩ := List.mem_iff_getElem.mp hv
  have hrn : r < n := by rwa [hT.1] at hrlt
  have hrow' : (transposeGrid g).getD r [] = row := by
    rw [List.getD_eq_getElem _ _ hrlt, hre]
  have hcn : c < n := by
    rw [← hT.2 row hrow]
    exact hclt
  have hentry : row.getD c 0 = (g.getD c []).getD r 0 := by
    rw [← hrow', transposeGrid_entry hG hrn hcn]
  have hv0 : row.getD c 0 = v := by
    rw [List.getD_eq_getElem _ _ hclt, hce]
  have hgc : g.getD c [] ∈ g := getD_mem_of_lt [] (by rw [hG.1]; exact hcn)
  have hfull := (countNZ_eq_length_iff).mp (h _ hgc)
  have hrlen : (g.getD c []).length = n := hG.2 _ hgc
  have hmem : (g.getD c []).getD r 0 ∈ g.getD c [] :=
    getD_mem_of_lt 0 (by omega)
  have hnz := hfull _ hmem
  rw [← hentry, hv0] at hnz
  exact hnz

theorem transform_of_full {n : Nat} {g : List (List Nat)} (hG : WF n g)
    (hfull : ∀ row ∈ g, countNZ row = row.length) (d : String)
    (hp : (transform d n g).2 = []) : (transform d n g).1 = g := by
  unfold transform at hp ⊢
  split_ifs at hp ⊢
  · exact mergeGrid_of_full hfull hG.2 hp
  · replace hp : (mergeGrid n (reverseRows g)).2 = [] := hp
    show reverseRows (mergeGrid n (reverseRows g)).1 = g
    rw [mergeGrid_of_full (full_preserved_reverseRows hfull)
      (WF_reverseRows hG).2 hp, reverseRows_reverseRows]
  · replace hp : (mergeGrid n (transposeGrid g)).2 = [] := hp
    show transposeGrid (mergeGrid n (transposeGrid g)).1 = g
    rw [mergeGrid_of_full (full_preserved_transposeGrid hG hfull)
      (WF_transposeGrid hG).2 hp, transposeGrid_transposeGrid hG]
  · replace hp : (mergeGrid n (reverseRows (transposeGrid g))).2 = [] := hp
    show transposeGrid
      (reverseRows (mergeGrid n (reverseRows (transposeGrid g))).1) = g
    rw [mergeGrid_of_full
      (full_preserved_reverseRows (full_preserved_transposeGrid hG hfull))
      (WF_reverseRows (WF_transposeGrid hG)).2 hp,
      reverseRows_reverseRows, transposeGrid_transposeGrid hG]
  · rfl

theorem countNZ_transform_lt {n : Nat} {g : List (List Nat)} {d : String}
    (hG : WF n g) (hch : (transform d n g).1 ≠ g) :
    countNZGrid (transform d n g).1 < n * n := by
  have hkey := transform_countNZ hG d
  by_cases hp : (transform d n g).2 = []
  · rcases Nat.lt_or_ge (countNZGrid g) (n * n) with hlt | hge
    · rw [hp] at hkey
      simp at hkey
      omega
    · have heq : countNZGrid g = n * n :=
        Nat.le_antisymm (countNZGrid_le hG) hge
      exact absurd (transform_of_full hG
        (full_rows_of_countNZGrid_eq hG heq) d hp) hch
  · have h1 : 0 < (transform d n g).2.length :=
      List.length_pos.mpr hp
    have h2 := countNZGrid_le hG
    omega

/-! ## Lemmas on `get_empty_cells` and `add_new_tile` -/

theorem mem_get_empty_cells {size : Nat} {g : List (List Nat)}
    {rc : Nat × Nat} :
    rc ∈ get_empty_cells size g ↔
      rc.1 < size ∧ rc.2 < size ∧ (g.getD rc.1 []).getD rc.2 0 = 0 := by
  simp only [get_empty_cells, List.mem_filter, List.mem_flatMap, List.mem_map,
    List.mem_range, decide_eq_true_eq]
  constructor
  · rintro ⟨⟨r, hr, c, hc, hrc⟩, h0⟩
    rw [← hrc]
    rw [← hrc] at h0
    exact ⟨hr, hc, h0⟩
  · rintro ⟨h1, h2, h3⟩
    exact ⟨⟨rc.1, h1, rc.2, h2, rfl⟩, h3⟩

theorem get_empty_cells_eq_nil_iff {size : Nat} {g : List (List Nat)} :
    get_empty_cells size g = [] ↔
      ∀ r < size, ∀ c < size, (g.getD r []).getD c 0 ≠ 0 := by
  rw [List.eq_nil_iff_forall_not_mem]
  constructor
  · intro h r hr c hc h0
    exact h (r, c) (mem_get_empty_cells.mpr ⟨hr, hc, h0⟩)
  · intro h rc hrc
    obtain ⟨h1, h2, h3⟩ := mem_get_empty_cells.mp hrc
    exact h rc.1 h1 rc.2 h2 h3

theorem countNZGrid_eq_of_no_empty {n : Nat} {g : List (List Nat)}
    (hG : WF n g) (h : get_empty_cells n g = []) :
    countNZGrid g = n * n := by
  have hcells := get_empty_cells_eq_nil_iff.mp h
  have hag := gridAgg_eq_entry_sum (fun x => if x ≠ 0 then 1 else 0) countNZ
    countNZ_eq_range_sum hG
  show (g.map countNZ).sum = n * n
  rw [hag]
  have : ∀ r ∈ Finset.range n, (∑ c ∈ Finset.range n,
      (if (g.getD r []).getD c 0 ≠ 0 then 1 else 0)) = n := by
    intro r hr
    have : ∀ c ∈ Finset.range n,
        (if (g.getD r []).getD c 0 ≠ 0 then 1 else 0) = 1 := by
      intro c hc
      rw [if_pos (hcells r (Finset.mem_range.mp hr) c (Finset.mem_range.mp hc))]
    rw [Finset.sum_congr rfl this, Finset.sum_const, Finset.card_range,
      smul_eq_mul, Nat.mul_one]
  rw [Finset.sum_congr rfl this, Finset.sum_const, Finset.card_range,
    smul_eq_mul]

theorem get_empty_cells_ne_nil {n : Nat} {g : List (List Nat)} (hG : WF n g)
    (h : countNZGrid g < n * n) : get_empty_cells n g ≠ [] := by
  intro he
  rw [countNZGrid_eq_of_no_empty hG he] at h
  omega

theorem chosen_mem {e : List (Nat × Nat)} (hne : e ≠ []) (idx : Nat) :
    e.getD (idx % e.length) (0, 0) ∈ e := by
  have hlen : 0 < e.length := List.length_pos.mpr hne
  exact getD_mem_of_lt (0, 0) (Nat.mod_lt idx hlen)

theorem add_new_tile_fields (s : GState) (idx : Nat) (two : Bool) :
    (add_new_tile s idx two).size = s.size ∧
    (add_new_tile s idx two).score = s.score ∧
    (add_new_tile s idx two).game_over = s.game_over ∧
    (add_new_tile s idx two).undo_stack = s.undo_stack ∧
    (add_new_tile s idx two).redo_stack = s.redo_stack := by
  simp only [add_new_tile]
  split_ifs <;> exact ⟨rfl, rfl, rfl, rfl, rfl⟩

theorem countNZ_set_of_zero {l : List Nat} {c v : Nat} (hc : c < l.length)
    (h0 : l.getD c 0 = 0) (hv : v ≠ 0) :
    countNZ (l.set c v) = countNZ l + 1 := by
  have := countNZ_set l c v hc
  rw [if_pos hv, if_neg (by rw [h0]; simp)] at this
  omega

theorem getD_map_countNZ {g : List (List Nat)} {r : Nat} (hr : r < g.length) :
    (g.map countNZ).getD r 0 = countNZ (g.getD r []) := by
  rw [List.getD_eq_getElem _ _ (by simpa using hr), List.getElem_map,
    List.getD_eq_getElem g [] hr]

theorem countNZGrid_setCell {n : Nat} {g : List (List Nat)} {r c v : Nat}
    (hG : WF n g) (hr : r < n) (hc : c < n)
    (h0 : (g.getD r []).getD c 0 = 0) (hv : v ≠ 0) :
    countNZGrid (setCell g r c v) = countNZGrid g + 1 := by
  have hrg : r < g.length := hG.1 ▸ hr
  have hrowlen : (g.getD r []).length = n := hG.2 _ (getD_mem_of_lt [] hrg)
  have hrow : countNZ ((g.getD r []).set c v) = countNZ (g.getD r []) + 1 :=
    countNZ_set_of_zero (hrowlen ▸ hc) h0 hv
  show ((setCell g r c v).map countNZ).sum = (g.map countNZ).sum + 1
  rw [setCell, List.map_set]
  have hsum := sum_set (g.map countNZ) r (countNZ ((g.getD r []).set c v))
    (by simpa using hrg)
  rw [getD_map_countNZ hrg] at hsum
  omega

theorem getD_map_sum {g : List (List Nat)} {r : Nat} (hr : r < g.length) :
    (g.map List.sum).getD r 0 = (g.getD r []).sum := by
  rw [List.getD_eq_getElem _ _ (by simpa using hr), List.getElem_map,
    List.getD_eq_getElem g [] hr]

theorem gridSum_setCell {n : Nat} {g : List (List Nat)} {r c v : Nat}
    (hG : WF n g) (hr : r < n) (hc : c < n)
    (h0 : (g.getD r []).getD c 0 = 0) :
    gridSum (setCell g r c v) = gridSum g + v := by
  have hrg : r < g.length := hG.1 ▸ hr
  have hrowlen : (g.getD r []).length = n := hG.2 _ (getD_mem_of_lt [] hrg)
  have hrow := sum_set (g.getD r []) c v (hrowlen ▸ hc)
  rw [h0] at hrow
  show ((setCell g r c v).map List.sum).sum = (g.map List.sum).sum + v
  rw [setCell, List.map_set]
  have hsum := sum_set (g.map List.sum) r ((g.getD r []).set c v).sum
    (by simpa using hrg)
  rw [getD_map_sum hrg] at hsum
  omega

theorem WF_setCell {n : Nat} {g : List (List Nat)} {r c v : Nat}
    (hG : WF n g) (hr : r < n) : WF n (setCell g r c v) := by
  refine ⟨by simp [setCell, hG.1], fun row hrow => ?_⟩
  rcases List.mem_or_eq_of_mem_set hrow with h | h
  · exact hG.2 row h
  · have hrg : r < g.length := hG.1 ▸ hr
    rw [h, List.length_set]
    exact hG.2 _ (getD_mem_of_lt [] hrg)

theorem PowGrid_setCell {g : List (List Nat)} {r c v : Nat} (h : PowGrid g)
    (hv : ∃ m, v = 2 ^ m) : PowGrid (setCell g r c v) := by
  intro row hrow w hw hwnz
  rcases List.mem_or_eq_of_mem_set hrow with hr' | hr'
  · exact h row hr' w hw hwnz
  · rw [hr'] at hw
    rcases List.mem_or_eq_of_mem_set hw with hw' | hw'
    · rcases getD_mem_or g r [] with hm | hm
      · exact h _ hm w hw' hwnz
      · rw [hm] at hw'
        simp at hw'
    · exact hw' ▸ hv

/-! ## Lemmas on `add_new_tile` at the state level -/

theorem add_new_tile_of_ne_nil {s : GState} (idx : Nat) (two : Bool)
    (hne : get_empty_cells s.size s.grid ≠ []) :
    (add_new_tile s idx two).grid =
      setCell s.grid
        ((get_empty_cells s.size s.grid).getD
          (idx % (get_empty_cells s.size s.grid).length) (0, 0)).1
        ((get_empty_cells s.size s.grid).getD
          (idx % (get_empty_cells s.size s.grid).length) (0, 0)).2
        (if two then 2 else 4) := by
  simp only [add_new_tile]
  rw [if_neg hne]

theorem countNZGrid_add_new_tile {s : GState} (idx : Nat) (two : Bool)
    (hG : WF s.size s.grid)
    (hne : get_empty_cells s.size s.grid ≠ []) :
    countNZGrid (add_new_tile s idx two).grid = countNZGrid s.grid + 1 := by
  rw [add_new_tile_of_ne_nil idx two hne]
  obtain ⟨h1, h2, h3⟩ := mem_get_empty_cells.mp (chosen_mem hne idx)
  exact countNZGrid_setCell hG h1 h2 h3 (by cases two <;> simp)

theorem gridSum_add_new_tile {s : GState} (idx : Nat) (two : Bool)
    (hG : WF s.size s.grid)
    (hne : get_empty_cells s.size s.grid ≠ []) :
    gridSum (add_new_tile s idx two).grid
      = gridSum s.grid + (if two then 2 else 4) := by
  rw [add_new_tile_of_ne_nil idx two hne]
  obtain ⟨h1, h2, h3⟩ := mem_get_empty_cells.mp (chosen_mem hne idx)
  exact gridSum_setCell hG h1 h2 h3

theorem WF_add_new_tile {s : GState} (idx : Nat) (two : Bool)
    (hG : WF s.size s.grid) : WF s.size (add_new_tile s idx two).grid := by
  by_cases hne : get_empty_cells s.size s.grid = []
  · simp only [add_new_tile]
    rw [if_pos hne]
    exact hG
  · rw [add_new_tile_of_ne_nil idx two hne]
    obtain ⟨h1, _, _⟩ := mem_get_empty_cells.mp (chosen_mem hne idx)
    exact WF_setCell hG h1

theorem PowGrid_add_new_tile {s : GState} (idx : Nat) (two : Bool)
    (h : PowGrid s.grid) : PowGrid (add_new_tile s idx two).grid := by
  by_cases hne : get_empty_cells s.size s.grid = []
  · simp only [add_new_tile]
    rw [if_pos hne]
    exact h
  · rw [add_new_tile_of_ne_nil idx two hne]
    refine PowGrid_setCell h ?_
    cases two
    · exact ⟨2, rfl⟩
    · exact ⟨1, rfl⟩

/-! ## `can_move` versus the spec's movability predicate -/

theorem can_move_iff {size : Nat} {g : List (List Nat)} :
    can_move size g = true ↔ specMovable size g := by
  by_cases he : get_empty_cells size g = []
  · have hcells := get_empty_cells_eq_nil_iff.mp he
    have hcm : can_move size g =
        ((List.range size).any fun r => (List.range size).any fun c =>
          (decide (c < size - 1) &&
            decide ((g.getD r []).getD c 0 = (g.getD r []).getD (c + 1) 0)) ||
          (decide (r < size - 1) &&
            decide ((g.getD r []).getD c 0 = (g.getD (r + 1) []).getD c 0))) := by
      simp only [can_move]
      rw [if_neg (by simp [he])]
    rw [hcm]
    simp only [List.any_eq_true, List.mem_range, Bool.or_eq_true,
      Bool.and_eq_true, decide_eq_true_eq]
    constructor
    · rintro ⟨r, hr, c, hc, ⟨hcl, heq⟩ | ⟨hrl, heq⟩⟩
      · refine Or.inr (Or.inl ⟨r, hr, c, by omega, hcells r hr c hc, heq⟩)
      · refine Or.inr (Or.inr ⟨r, by omega, c, hc, hcells r hr c hc, heq⟩)
    · rintro (⟨r, hr, c, hc, h0⟩ | ⟨r, hr, c, hc1, _, heq⟩ | ⟨r, hr1, c, hc, _, heq⟩)
      · exact absurd h0 (hcells r hr c hc)
      · exact ⟨r, hr, c, by omega, Or.inl ⟨by omega, heq⟩⟩
      · exact ⟨r, by omega, c, hc, Or.inr ⟨by omega, heq⟩⟩
  · have hcm : can_move size g = true := by
      simp only [can_move]
      rw [if_pos (by simp [he])]
    rw [hcm]
    obtain ⟨rc, hrc⟩ := List.exists_mem_of_ne_nil _ he
    obtain ⟨h1, h2, h3⟩ := mem_get_empty_cells.mp hrc
    exact iff_of_true rfl (Or.inl ⟨rc.1, h1, rc.2, h2, h3⟩)

/-! ## Lemmas on `move` -/

theorem move1_of_game_over {s : GState} (d : String) (idx : Nat) (two : Bool)
    (h : s.game_over = true) :
    move1 s d idx two = s ∧ move2 s d idx two = (s, false) := by
  constructor
  · unfold move1
    rw [if_pos h]
  · unfold move2
    rw [if_pos h]

theorem transform_invalid (size : Nat) (g : List (List Nat)) {d : String}
    (h1 : d ≠ "left") (h2 : d ≠ "right") (h3 : d ≠ "up") (h4 : d ≠ "down") :
    transform d size g = (g, []) := by
  unfold transform
  rw [if_neg h1, if_neg h2, if_neg h3, if_neg h4]

theorem afterSpawn_score (s : GState) (d : String) (idx : Nat) (two : Bool) :
    (afterSpawn s d idx two).score
      = s.score + (transform d s.size s.grid).2.sum :=
  (add_new_tile_fields (afterTransform s d) idx two).2.1

theorem move1_score_eq {s : GState} (d : String) (idx : Nat) (two : Bool)
    (hgo : s.game_over = false) :
    (move1 s d idx two).score
      = s.score + (transform d s.size s.grid).2.sum := by
  unfold move1
  rw [if_neg (by rw [hgo]; simp)]
  split_ifs with h1 h2
  · exact afterSpawn_score s d idx two
  · exact afterSpawn_score s d idx two
  · rfl

theorem move1_grid_changed {s : GState} {d : String} (idx : Nat) (two : Bool)
    (hgo : s.game_over = false)
    (hch : (transform d s.size s.grid).1 ≠ s.grid) :
    (move1 s d idx two).grid
      = (add_new_tile (afterTransform s d) idx two).grid := by
  unfold move1
  rw [if_neg (by rw [hgo]; simp), if_pos hch]
  split_ifs with h2
  · rfl
  · rfl

theorem move2_fst (s : GState) (d : String) (idx : Nat) (two : Bool) :
    (move2 s d idx two).1 = move1 s d idx two := by
  unfold move1 move2
  split_ifs <;> rfl

theorem move2_snd_iff (s : GState) (d : String) (idx : Nat) (two : Bool) :
    (move2 s d idx two).2 = true ↔
      s.game_over = false ∧ (transform d s.size s.grid).1 ≠ s.grid := by
  unfold move2
  cases hgo : s.game_over
  · rw [if_neg (by simp)]
    split_ifs with h2 <;> simp [h2]
  · rw [if_pos rfl]
    simp

theorem products_nil_of_unchanged {n : Nat} {g : List (List Nat)} {d : String}
    (hG : WF n g) (h : (transform d n g).1 = g) : (transform d n g).2 = [] := by
  have hc := transform_countNZ hG d
  rw [h] at hc
  have hlen : (transform d n g).2.length = 0 := by omega
  exact List.length_eq_zero.mp hlen

theorem afterTransform_eq_self {s : GState} {d : String}
    (hch : (transform d s.size s.grid).1 = s.grid)
    (hp : (transform d s.size s.grid).2 = []) : afterTransform s d = s := by
  unfold afterTransform
  rw [hch, hp]
  rfl

theorem move_unchanged_state {s : GState} {d : String} (idx : Nat) (two : Bool)
    (hgo : s.game_over = false)
    (hch : (transform d s.size s.grid).1 = s.grid)
    (hp : (transform d s.size s.grid).2 = []) :
    move1 s d idx two = s ∧ move2 s d idx two = (s, false) := by
  constructor
  · unfold move1
    rw [if_neg (by rw [hgo]; simp), if_neg (by rw [hch]; simp)]
    exact afterTransform_eq_self hch hp
  · unfold move2
    rw [if_neg (by rw [hgo]; simp), if_neg (by rw [hch]; simp)]
    rw [afterTransform_eq_self hch hp]

theorem spawn_possible {s : GState} {d : String} (hWF : WF s.size s.grid)
    (hch : (transform d s.size s.grid).1 ≠ s.grid) :
    get_empty_cells s.size (transform d s.size s.grid).1 ≠ [] :=
  get_empty_cells_ne_nil (WF_transform hWF d) (countNZ_transform_lt hWF hch)

/-! ## Claim theorems -/

/-- C1: one merge pass merges each tile at most once: a merge fired at
position `i` leaves a zero at `i + 1`, so the guard cannot fire at `i + 1`
next; and concretely `_merge` sends `[2, 2, 2, 0]` to `[4, 2, 0, 0]`, not
`[4, 4, 0, 0]`. -/
theorem merge_single_pass :
    ((merge 4 [2, 2, 2, 0]).1 = [4, 2, 0, 0] ∧
      (merge 4 [2, 2, 2, 0]).1 ≠ [4, 4, 0, 0]) ∧
    ∀ row i, mergeCond row i = true →
      mergeCond (mergeSet row i) (i + 1) = false := by
  refine ⟨⟨by decide, by decide⟩, fun row i h => ?_⟩
  obtain ⟨hb, hnz, heq⟩ := mergeCond_bounds h
  have h0 : (mergeSet row i).getD (i + 1) 0 = 0 := by
    unfold mergeSet
    exact getD_set_self 0 0 (by rw [List.length_set]; exact hb)
  unfold mergeCond
  rw [h0]
  simp

/-- C2: with `game_over` false, a `move` whose directional transform
leaves the grid equal to its pre-move value changes nothing at all: no tile
spawn, no history push, no redo clearing, no `game_over` flip, and no score
change (the merge pass produced no merge, so the score additions inside it
summed to zero); the PyQt6 `move` reports `false`. -/
theorem move_unchanged_noop {s : GState} {d : String} (idx : Nat) (two : Bool)
    (hWF : WF s.size s.grid) (hgo : s.game_over = false)
    (hch : (transform d s.size s.grid).1 = s.grid) :
    move1 s d idx two = s ∧ move2 s d idx two = (s, false) :=
  move_unchanged_state idx two hgo hch (products_nil_of_unchanged hWF hch)

/-- Witness for C2 at a full alternating grid, which no left move changes. -/
theorem move_unchanged_noop_witness :
    move1 sampleNoop "left" 0 true = sampleNoop ∧
      move2 sampleNoop "left" 0 true = (sampleNoop, false) :=
  move_unchanged_noop 0 true ⟨rfl, by decide⟩ rfl (by decide)

/-- C3: `move` never decreases the score (in either engine version), and
when the transform changes the grid the score grows by exactly the sum of
the doubled values produced by the merges of that move — zero when the move
merges nothing. -/
theorem move_score_spec (s : GState) (d : String) (idx : Nat) (two : Bool) :
    s.score ≤ (move1 s d idx two).score ∧
    s.score ≤ (move2 s d idx two).1.score ∧
    (s.game_over = false → (transform d s.size s.grid).1 ≠ s.grid →
      (move1 s d idx two).score
        = s.score + (transform d s.size s.grid).2.sum) ∧
    ((transform d s.size s.grid).2 = [] →
      (move1 s d idx two).score = s.score) := by
  have hmono : s.score ≤ (move1 s d idx two).score := by
    cases hgo : s.game_over
    · rw [move1_score_eq d idx two hgo]
      exact Nat.le_add_right _ _
    · rw [(move1_of_game_over d idx two hgo).1]
  refine ⟨hmono, by rw [move2_fst]; exact hmono, fun hgo _ => ?_, fun hp => ?_⟩
  · exact move1_score_eq d idx two hgo
  · cases hgo : s.game_over
    · rw [move1_score_eq d idx two hgo, hp]
      rfl
    · rw [(move1_of_game_over d idx two hgo).1]

/-- C4: whenever `undo` succeeds, an immediately following `redo`
succeeds and restores exactly the pre-undo grid, score and game-over flag. -/
theorem undo_then_redo (s : GState) (h : (undo s).2 = true) :
    (redo (undo s).1).2 = true ∧
    (redo (undo s).1).1.grid = s.grid ∧
    (redo (undo s).1).1.score = s.score ∧
    (redo (undo s).1).1.game_over = s.game_over := by
  match hs : s.undo_stack with
  | [] => simp [undo, hs] at h
  | [a] => simp [undo, hs] at h
  | a :: b :: rest =>
    have hu : (undo s).1 = set_state
        { s with redo_stack := get_state s :: s.redo_stack,
                 undo_stack := b :: rest } b := by
      simp [undo, hs]
    rw [hu]
    refine ⟨?_, ?_, ?_, ?_⟩ <;> simp [redo, set_state, get_state]

/-- Witness for C4 at a state with one undoable history entry. -/
theorem undo_then_redo_witness :
    (redo (undo sampleHist).1).2 = true ∧
    (redo (undo sampleHist).1).1.grid = sampleHist.grid ∧
    (redo (undo sampleHist).1).1.score = sampleHist.score ∧
    (redo (undo sampleHist).1).1.game_over = sampleHist.game_over :=
  undo_then_redo sampleHist (by decide)

/-- C5: `can_move` is false exactly when the grid has no empty cell and
no adjacent equal pair, i.e. true exactly when some cell is empty or some
horizontally or vertically adjacent pair holds equal (necessarily nonzero)
values. -/
theorem can_move_spec (size : Nat) (g : List (List Nat)) :
    (can_move size g = false ↔ ¬ specMovable size g) ∧
    (can_move size g = true ↔ specMovable size g) := by
  refine ⟨?_, can_move_iff⟩
  rw [← can_move_iff]
  cases h : can_move size g <;> simp

/-- C6: a move whose transform changes the grid obeys cell-count
conservation: nonzero cells after the move plus the number of merges
performed equals nonzero cells before plus one (one tile is always spawned,
since a changing transform always leaves an empty cell). -/
theorem move_cell_conservation {s : GState} {d : String} (idx : Nat)
    (two : Bool) (hWF : WF s.size s.grid) (hgo : s.game_over = false)
    (hch : (transform d s.size s.grid).1 ≠ s.grid) :
    countNZGrid (move1 s d idx two).grid
        + (transform d s.size s.grid).2.length
      = countNZGrid s.grid + 1 ∧
    get_empty_cells s.size (transform d s.size s.grid).1 ≠ [] := by
  have hne := spawn_possible hWF hch
  refine ⟨?_, hne⟩
  rw [move1_grid_changed idx two hgo hch]
  have hspawn := countNZGrid_add_new_tile (s := afterTransform s d) idx two
    (WF_transform hWF d) hne
  rw [hspawn]
  have hcnt := transform_countNZ hWF d
  show countNZGrid (transform d s.size s.grid).1 + 1
      + (transform d s.size s.grid).2.length = countNZGrid s.grid + 1
  omega

/-- Witness for C6: a left move on `sampleMove` merges once and spawns
once. -/
theorem move_cell_conservation_witness :
    countNZGrid (move1 sampleMove "left" 0 true).grid
        + (transform "left" sampleMove.size sampleMove.grid).2.length
      = countNZGrid sampleMove.grid + 1 ∧
    get_empty_cells sampleMove.size
      (transform "left" sampleMove.size sampleMove.grid).1 ≠ [] :=
  move_cell_conservation 0 true ⟨rfl, by decide⟩ rfl (by decide)

/-- Counterexample to C7 as stated: the tkinter `move` returns `None` even
on a move that changes the grid, so it does not return a `changed` boolean
that is true exactly when the grid changed. -/
theorem move_ret_none_cex :
    (move1 sampleMove "left" 0 true).grid ≠ sampleMove.grid ∧
    move1_ret sampleMove "left" 0 true = none := by
  exact ⟨by decide, rfl⟩

/-- C7, amended: both engines treat `game_over` and unrecognised
directions as complete no-ops (state untouched, nothing raised); the PyQt6
`move` returns a boolean that is true exactly when the grid changed, while
the tkinter `move` returns `None` on every path and so reports nothing. -/
theorem move_defensive :
    (∀ (s : GState) (d : String) (idx : Nat) (two : Bool),
      s.game_over = true →
        move1 s d idx two = s ∧ move2 s d idx two = (s, false)) ∧
    (∀ (s : GState) (d : String) (idx : Nat) (two : Bool),
      d ≠ "left" → d ≠ "right" → d ≠ "up" → d ≠ "down" →
        move1 s d idx two = s ∧ move2 s d idx two = (s, false)) ∧
    (∀ (s : GState) (d : String) (idx : Nat) (two : Bool),
      move1_ret s d idx two = none) ∧
    (∀ (s : GState) (d : String) (idx : Nat) (two : Bool),
      WF s.size s.grid →
        ((move2 s d idx two).2 = true ↔
          (move2 s d idx two).1.grid ≠ s.grid)) := by
  refine ⟨fun s d idx two h => move1_of_game_over d idx two h,
    fun s d idx two h1 h2 h3 h4 => ?_, fun _ _ _ _ => rfl,
    fun s d idx two hWF => ?_⟩
  · have hT := transform_invalid s.size s.grid h1 h2 h3 h4
    cases hgo : s.game_over
    · have hch : (transform d s.size s.grid).1 = s.grid := by rw [hT]
      have hp : (transform d s.size s.grid).2 = [] := by rw [hT]
      exact move_unchanged_state idx two hgo hch hp
    · exact move1_of_game_over d idx two hgo
  · rw [move2_snd_iff, move2_fst]
    cases hgo : s.game_over
    · simp only [true_and]
      by_cases hch : (transform d s.size s.grid).1 = s.grid
      · have hp := products_nil_of_unchanged hWF hch
        rw [(move_unchanged_state idx two hgo hch hp).1]
        simp [hch]
      · have hne := spawn_possible hWF hch
        have hsum : gridSum (move1 s d idx two).grid
            = gridSum s.grid + (if two then 2 else 4) := by
          rw [move1_grid_changed idx two hgo hch,
            gridSum_add_new_tile (s := afterTransform s d) idx two
              (WF_transform hWF d) hne]
          show gridSum (transform d s.size s.grid).1 + _ = _
          rw [gridSum_transform hWF d]
        constructor
        · intro _
          intro hgeq
          rw [hgeq] at hsum
          cases two <;> simp at hsum
        · intro _
          exact hch
    · rw [(move1_of_game_over d idx two hgo).1]
      simp [hgo]

/-- Witness for C7's amended claim is not needed (no top-level hypothesis);
the fourth part is exercised by `move_cell_conservation_witness`'s state. -/
theorem move_defensive_probe :
    move1 sampleNoop "diag" 3 false = sampleNoop ∧
      move2 sampleNoop "diag" 3 false = (sampleNoop, false) :=
  move_defensive.2.1 sampleNoop "diag" 3 false
    (by decide) (by decide) (by decide) (by decide)

/-- C10: the two engine classes are state-transition equivalent: `move`,
`undo` and `redo` produce identical states (grid, score, game-over flag and
both stacks) in both versions for every call sequence and identical random
choices; they differ only in `move`'s return value. -/
theorem engines_equivalent :
    (∀ (s : GState) (d : String) (idx : Nat) (two : Bool),
      (move2 s d idx two).1 = move1 s d idx two) ∧
    ∀ (s : GState) (ops : List Op), run2 s ops = run s ops := by
  refine ⟨move2_fst, fun s ops => ?_⟩
  induction ops generalizing s with
  | nil => rfl
  | cons op t ih =>
    show List.foldl step2 (step2 s op) t = List.foldl step (step s op) t
    have hstep : step2 s op = step s op := by
      cases op with
      | mv d idx two => exact move2_fst s d idx two
      | un => rfl
      | re => rfl
    rw [hstep]
    exact ih (step s op)

/-! ## The power-of-two invariant (C8) -/

theorem PowGrid_replicate (n : Nat) :
    PowGrid (List.replicate n (List.replicate n 0)) := by
  intro row hrow v hv hvnz
  rw [List.mem_replicate] at hrow
  rw [hrow.2, List.mem_replicate] at hv
  exact absurd hv.2 hvnz

theorem PowState_save {s : GState} (h : PowState s) :
    PowState (save_state s) := by
  refine ⟨h.1, fun st hst => ?_, by simp [save_state]⟩
  rcases List.mem_cons.mp hst with h' | h'
  · rw [h']
    exact h.1
  · exact h.2.1 st h'

theorem PowState_add_new_tile {s : GState} (idx : Nat) (two : Bool)
    (h : PowState s) : PowState (add_new_tile s idx two) := by
  obtain ⟨_, _, _, hu, hr⟩ := add_new_tile_fields s idx two
  exact ⟨PowGrid_add_new_tile idx two h.1, hu ▸ h.2.1, hr ▸ h.2.2⟩

theorem PowState_afterTransform {s : GState} (d : String) (h : PowState s) :
    PowState (afterTransform s d) :=
  ⟨PowGrid_transform h.1 d, h.2.1, h.2.2⟩

theorem PowState_move1 {s : GState} (d : String) (idx : Nat) (two : Bool)
    (h : PowState s) : PowState (move1 s d idx two) := by
  unfold move1
  split_ifs
  · exact h
  · exact PowState_save (PowState_add_new_tile idx two
      (PowState_afterTransform d h))
  · have h' := PowState_save (PowState_add_new_tile idx two
      (PowState_afterTransform d h))
    exact ⟨h'.1, h'.2.1, h'.2.2⟩
  · exact PowState_afterTransform d h

theorem PowState_undo {s : GState} (h : PowState s) : PowState (undo s).1 := by
  rcases hs : s.undo_stack with _ | ⟨a, _ | ⟨b, rest⟩⟩
  · simp only [undo, hs]
    exact h
  · simp only [undo, hs]
    exact h
  · simp only [undo, hs, set_state]
    have hb : PowGrid b.grid := h.2.1 b (by rw [hs]; simp)
    refine ⟨hb, fun st hst => ?_, fun st hst => ?_⟩
    · rcases List.mem_cons.mp hst with h' | h'
      · rw [h']
        exact hb
      · exact h.2.1 st (by rw [hs]; simp [h'])
    · rcases List.mem_cons.mp hst with h' | h'
      · rw [h']
        exact h.1
      · exact h.2.2 st h'

theorem PowState_redo {s : GState} (h : PowState s) : PowState (redo s).1 := by
  rcases hs : s.redo_stack with _ | ⟨st, rest⟩
  · simp only [redo, hs]
    exact h
  · simp only [redo, hs, set_state, get_state]
    have hst : PowGrid st.grid := h.2.2 st (by rw [hs]; simp)
    refine ⟨hst, fun x hx => ?_, fun x hx => ?_⟩
    · rcases List.mem_cons.mp hx with h' | h'
      · rw [h']
        exact hst
      · exact h.2.1 x h'
    · exact h.2.2 x (by rw [hs]; simp [hx])

theorem PowState_step (s : GState) (op : Op) (h : PowState s) :
    PowState (step s op) := by
  cases op with
  | mv d idx two => exact PowState_move1 d idx two h
  | un => exact PowState_undo h
  | re => exact PowState_redo h

theorem PowState_run (ops : List Op) :
    ∀ s : GState, PowState s → PowState (run s ops) := by
  induction ops with
  | nil => exact fun s h => h
  | cons op t ih =>
    intro s h
    exact ih (step s op) (PowState_step s op h)

theorem PowState_init (size i1 : Nat) (t1 : Bool) (i2 : Nat) (t2 : Bool) :
    PowState (init size i1 t1 i2 t2) := by
  have hrw : init size i1 t1 i2 t2 = save_state (add_new_tile (add_new_tile
      ⟨size, 0, false, List.replicate size (List.replicate size 0), [], []⟩
      i1 t1) i2 t2) := rfl
  rw [hrw]
  refine PowState_save (PowState_add_new_tile i2 t2
    (PowState_add_new_tile i1 t1 ⟨PowGrid_replicate size, ?_, ?_⟩))
  · intro st hst
    simp at hst
  · intro st hst
    simp at hst

/-- C8: in every state reachable from construction by any sequence of
`move`, `undo` and `redo` calls (with any random choices), every nonzero
grid cell holds a power of two. -/
theorem reachable_grid_pow (size i1 : Nat) (t1 : Bool) (i2 : Nat) (t2 : Bool)
    (ops : List Op) :
    PowGrid (run (init size i1 t1 i2 t2) ops).grid :=
  (PowState_run ops _ (PowState_init size i1 t1 i2 t2)).1

/-! ## Snapshot immutability in the reference-passing model (C9) -/

theorem length_store_haddtile (s1 : HState) (idx : Nat) (two : Bool) :
    (haddtile s1 idx two).store.length = s1.store.length := by
  unfold haddtile
  split_ifs <;> simp

theorem haddtile_stacks (s1 : HState) (idx : Nat) (two : Bool) :
    (haddtile s1 idx two).undo_stack = s1.undo_stack ∧
      (haddtile s1 idx two).redo_stack = s1.redo_stack := by
  unfold haddtile
  split_ifs <;> exact ⟨rfl, rfl⟩

theorem haddtile_lookup (s1 : HState) (idx : Nat) (two : Bool) {j : Nat}
    (hja : j ≠ s1.ref) :
    lookupStore (haddtile s1 idx two) j = lookupStore s1 j := by
  unfold haddtile lookupStore
  split_ifs
  · rfl
  · exact getD_set_ne (Ne.symm hja) _ _
  · exact getD_set_ne (Ne.symm hja) _ _

theorem hsave_lookup (s1 : HState) {j : Nat} (hj : j < s1.store.length) :
    lookupStore (hsave_state s1) j = lookupStore s1 j := by
  show (s1.store ++ [lookupStore s1 s1.ref]).getD j [] = s1.store.getD j []
  exact List.getD_append _ _ _ j hj

theorem hAfterTransform_lookup (s : HState) (d : String) {j : Nat}
    (hj : j < s.store.length) :
    lookupStore (hAfterTransform s d) j = lookupStore s j := by
  show (s.store ++ [(transform d s.size (lookupStore s s.ref)).1]).getD j []
      = s.store.getD j []
  exact List.getD_append _ _ _ j hj

theorem hAfterSpawn_lookup (s1 : HState) (idx : Nat) (two : Bool) {j : Nat}
    (hj : j < s1.store.length) (hja : j ≠ s1.ref) :
    lookupStore (hAfterSpawn s1 idx two) j = lookupStore s1 j := by
  unfold hAfterSpawn
  rw [hsave_lookup _ (by rw [length_store_haddtile]; exact hj)]
  exact haddtile_lookup s1 idx two hja

theorem hundo_lookup (s : HState) {j : Nat} (hj : j < s.store.length) :
    lookupStore (hundo s).1 j = lookupStore s j := by
  rcases hs : s.undo_stack with _ | ⟨a, _ | ⟨b, rest⟩⟩
  · simp only [hundo, hs]
  · simp only [hundo, hs]
  · simp only [hundo, hs]
    show (s.store ++ [lookupStore s s.ref]).getD j [] = s.store.getD j []
    exact List.getD_append _ _ _ j hj

theorem hredo_lookup (s : HState) {j : Nat} (hj : j < s.store.length) :
    lookupStore (hredo s).1 j = lookupStore s j := by
  rcases hs : s.redo_stack with _ | ⟨sn, rest⟩
  · simp only [hredo, hs]
  · simp only [hredo, hs]
    show (s.store ++ [_]).getD j [] = s.store.getD j []
    exact List.getD_append _ _ _ j hj

theorem hmove_lookup (s : HState) (d : String) (idx : Nat) (two : Bool)
    {j : Nat} (hj : j < s.store.length) :
    lookupStore (hmove s d idx two) j = lookupStore s j := by
  have hlenA : (hAfterTransform s d).store.length = s.store.length + 1 := by
    simp [hAfterTransform]
  have hrefA : (hAfterTransform s d).ref = s.store.length := rfl
  unfold hmove
  split_ifs
  · rfl
  · rw [hAfterSpawn_lookup _ idx two (by omega) (by omega),
      hAfterTransform_lookup s d hj]
  · show lookupStore (hAfterSpawn (hAfterTransform s d) idx two) j
        = lookupStore s j
    rw [hAfterSpawn_lookup _ idx two (by omega) (by omega),
      hAfterTransform_lookup s d hj]
  · exact hAfterTransform_lookup s d hj
  · rfl

theorem hstep_lookup (s : HState) (op : Op) {j : Nat}
    (hj : j < s.store.length) :
    lookupStore (hstep s op) j = lookupStore s j := by
  cases op with
  | mv d idx two => exact hmove_lookup s d idx two hj
  | un => exact hundo_lookup s hj
  | re => exact hredo_lookup s hj

theorem HInv_ref_lt {s : HState} (h : HInv s) {j : Nat}
    (hj : j ∈ stackRefs s) : j < s.store.length := by
  unfold stackRefs at hj
  rcases List.mem_append.mp hj with h' | h'
  · obtain ⟨sn, hsn, he⟩ := List.mem_map.mp h'
    exact he ▸ h.1 sn hsn
  · obtain ⟨sn, hsn, he⟩ := List.mem_map.mp h'
    exact he ▸ h.2 sn hsn

theorem HInv_haddtile {s1 : HState} (idx : Nat) (two : Bool) (h : HInv s1) :
    HInv (haddtile s1 idx two) := by
  obtain ⟨hu, hr⟩ := haddtile_stacks s1 idx two
  constructor
  · intro sn hsn
    rw [length_store_haddtile]
    exact h.1 sn (hu ▸ hsn)
  · intro sn hsn
    rw [length_store_haddtile]
    exact h.2 sn (hr ▸ hsn)

theorem HInv_hsave {s1 : HState} (h : HInv s1) : HInv (hsave_state s1) := by
  refine ⟨fun sn hsn => ?_, fun sn hsn => ?_⟩
  · show sn.ref < (s1.store ++ [lookupStore s1 s1.ref]).length
    rw [List.length_append, List.length_singleton]
    have hsn' : sn ∈ (⟨s1.store.length, s1.score, s1.game_over⟩ : HSnap)
        :: s1.undo_stack := hsn
    rcases List.mem_cons.mp hsn' with h' | h'
    · rw [h']
      show s1.store.length < s1.store.length + 1
      omega
    · have := h.1 sn h'
      omega
  · exact absurd (show sn ∈ ([] : List HSnap) from hsn) (List.not_mem_nil sn)

theorem HInv_hAfterTransform {s : HState} (d : String) (h : HInv s) :
    HInv (hAfterTransform s d) := by
  refine ⟨fun sn hsn => ?_, fun sn hsn => ?_⟩
  · show sn.ref <
      (s.store ++ [(transform d s.size (lookupStore s s.ref)).1]).length
    rw [List.length_append, List.length_singleton]
    have := h.1 sn hsn
    omega
  · show sn.ref <
      (s.store ++ [(transform d s.size (lookupStore s s.ref)).1]).length
    rw [List.length_append, List.length_singleton]
    have := h.2 sn hsn
    omega

theorem HInv_hundo {s : HState} (h : HInv s) : HInv (hundo s).1 := by
  rcases hs : s.undo_stack with _ | ⟨a, _ | ⟨b, rest⟩⟩
  · simp only [hundo, hs]
    exact h
  · simp only [hundo, hs]
    exact h
  · simp only [hundo, hs]
    refine ⟨fun sn hsn => ?_, fun sn hsn => ?_⟩
    · show sn.ref < (s.store ++ [lookupStore s s.ref]).length
      rw [List.length_append, List.length_singleton]
      have hsn' : sn ∈ b :: rest := hsn
      rcases List.mem_cons.mp hsn' with h' | h'
      · have := h.1 b (by rw [hs]; exact List.mem_cons_of_mem _ (List.mem_cons_self b rest))
        rw [h']
        omega
      · have := h.1 sn (by rw [hs]; exact List.mem_cons_of_mem _ (List.mem_cons_of_mem _ h'))
        omega
    · show sn.ref < (s.store ++ [lookupStore s s.ref]).length
      rw [List.length_append, List.length_singleton]
      have hsn' : sn ∈ (⟨s.store.length, s.score, s.game_over⟩ : HSnap)
          :: s.redo_stack := hsn
      rcases List.mem_cons.mp hsn' with h' | h'
      · rw [h']
        show s.store.length < s.store.length + 1
        omega
      · have := h.2 sn h'
        omega

theorem HInv_hredo {s : HState} (h : HInv s) : HInv (hredo s).1 := by
  rcases hs : s.redo_stack with _ | ⟨sn0, rest⟩
  · simp only [hredo, hs]
    exact h
  · simp only [hredo, hs]
    refine ⟨fun sn hsn => ?_, fun sn hsn => ?_⟩
    · show sn.ref < (s.store ++ [lookupStore s sn0.ref]).length
      rw [List.length_append, List.length_singleton]
      have hsn' : sn ∈ (⟨s.store.length, sn0.score, sn0.game_over⟩ : HSnap)
          :: s.undo_stack := hsn
      rcases List.mem_cons.mp hsn' with h' | h'
      · rw [h']
        show s.store.length < s.store.length + 1
        omega
      · have := h.1 sn h'
        omega
    · show sn.ref < (s.store ++ [lookupStore s sn0.ref]).length
      rw [List.length_append, List.length_singleton]
      have hsn' : sn ∈ rest := hsn
      have := h.2 sn (by rw [hs]; exact List.mem_cons_of_mem _ hsn')
      omega

theorem HInv_hmove {s : HState} (d : String) (idx : Nat) (two : Bool)
    (h : HInv s) : HInv (hmove s d idx two) := by
  unfold hmove
  split_ifs
  · exact h
  · exact HInv_hsave (HInv_haddtile idx two (HInv_hAfterTransform d h))
  · exact HInv_hsave (HInv_haddtile idx two (HInv_hAfterTransform d h))
  · exact HInv_hAfterTransform d h
  · exact h

theorem HInv_hstep (s : HState) (op : Op) (h : HInv s) :
    HInv (hstep s op) := by
  cases op with
  | mv d idx two => exact HInv_hmove d idx two h
  | un => exact HInv_hundo h
  | re => exact HInv_hredo h

theorem HInv_hrun (ops : List Op) :
    ∀ s : HState, HInv s → HInv (hrun s ops) := by
  induction ops with
  | nil => exact fun s h => h
  | cons op t ih =>
    intro s h
    exact ih (hstep s op) (HInv_hstep s op h)

theorem HInv_hinit (size i1 : Nat) (t1 : Bool) (i2 : Nat) (t2 : Bool) :
    HInv (hinit size i1 t1 i2 t2) := by
  have hrw : hinit size i1 t1 i2 t2 = hsave_state (haddtile (haddtile
      ⟨size, [List.replicate size (List.replicate size 0)], 0, 0, false,
        [], []⟩ i1 t1) i2 t2) := rfl
  rw [hrw]
  refine HInv_hsave (HInv_haddtile i2 t2 (HInv_haddtile i1 t1 ?_))
  exact ⟨fun sn hsn => absurd hsn (List.not_mem_nil sn),
    fun sn hsn => absurd hsn (List.not_mem_nil sn)⟩

/-- C9: snapshots already stored on the history stacks are never altered
by any further engine call: the grid contents a stored snapshot reference
names are the same before and after the call — even though `undo` installs
the undo stack's top snapshot as the live grid without copying, because
every recognised move rebinds the live grid to a fresh object before the
in-place spawn write. -/
theorem snapshots_immutable (size i1 : Nat) (t1 : Bool) (i2 : Nat) (t2 : Bool)
    (ops : List Op) (op : Op) (j : Nat)
    (hj : j ∈ stackRefs (hrun (hinit size i1 t1 i2 t2) ops)) :
    lookupStore (hstep (hrun (hinit size i1 t1 i2 t2) ops) op) j
      = lookupStore (hrun (hinit size i1 t1 i2 t2) ops) j :=
  hstep_lookup _ op
    (HInv_ref_lt (HInv_hrun ops _ (HInv_hinit size i1 t1 i2 t2)) hj)

/-- Witness for C9: the constructor's snapshot (reference 1) survives a
left move unchanged. -/
theorem snapshots_immutable_witness :
    lookupStore (hstep (hrun (hinit 2 0 true 1 true) []) (Op.mv "left" 0 true)) 1
      = lookupStore (hrun (hinit 2 0 true 1 true) []) 1 :=
  snapshots_immutable 2 0 true 1 true [] (Op.mv "left" 0 true) 1 (by decide)

end Game2048
